import Mathlib

/-!
Verification of the randomization & inference engine of `rb` (files
`rb/randomization.py` and `rb/inference.py`).

Modelling conventions used throughout this development:

* Python floats are modelled as exact rationals (`ℚ`).  The algorithms under
  study only use field operations and comparisons, so every definition below
  is the exact-arithmetic shadow of the corresponding Python function.
* A CSV cell that is missing or non-numeric parses to `None` in the source
  (`_parse_float`); we model a parsed cell directly as `Option ℚ`.
* Functions keep the names of the Python functions they embed.
-/

namespace RB

/-! ### Benjamini-Hochberg FDR adjustment (`rb/randomization.py`, `_add_bh_q_values`)

The source receives `rows: list[dict[str, str]]` and reads `p = _parse_float(r.get(p_col))`
from each row, writing the adjusted value back into `r[q_col]` (empty string for rows
whose p is missing).  We model a row by its parsed p-cell (`Option ℚ`) and the output
by the parsed q-cell (`none` = the empty string). -/

/-- The `p_items` accumulation of `_add_bh_q_values`: pairs `(i, p)` for every row
index `i` whose p-cell parses to a number, in row order, starting at index `start`.
`pItems rows = pItemsFrom 0 rows` corresponds to the Python
`for i, r in enumerate(rows): ... p_items.append((i, p))`. -/
def pItemsFrom : ℕ → List (Option ℚ) → List (ℕ × ℚ)
  | _, [] => []
  | i, none :: rest => pItemsFrom (i + 1) rest
  | i, some p :: rest => (i, p) :: pItemsFrom (i + 1) rest

def pItems (rows : List (Option ℚ)) : List (ℕ × ℚ) :=
  pItemsFrom 0 rows

/-- Comparison used by `sorted(p_items, key=lambda t: t[1])`: ascending by the p value. -/
def rankLE (a b : ℕ × ℚ) : Prop := a.2 ≤ b.2

instance : DecidableRel rankLE := fun a b => inferInstanceAs (Decidable (a.2 ≤ b.2))

instance : IsTotal (ℕ × ℚ) rankLE := ⟨fun a b => le_total a.2 b.2⟩

instance : IsTrans (ℕ × ℚ) rankLE := ⟨fun _ _ _ hab hbc => le_trans hab hbc⟩

/-- The ratios `(p * m) / rank` of the ranked p-values, with 0-based position `k`
standing for 1-based rank `k + 1` (`bhRatios` starts the position count at 0). -/
def bhRatiosFrom (m : ℕ) : ℕ → List ℚ → List ℚ
  | _, [] => []
  | k, p :: ps => p * (m : ℚ) / ((k : ℚ) + 1) :: bhRatiosFrom m (k + 1) ps

def bhRatios (ps : List ℚ) (m : ℕ) : List ℚ :=
  bhRatiosFrom m 0 ps

/-- The backward sweep of `_add_bh_q_values`:
`prev = 1.0; for k in range(m-1, -1, -1): q = min(prev, ratio_k); prev = q; q_tmp[k] = q`.
`bhRunMin ratios` returns `q_tmp`. -/
def bhRunMin : List ℚ → List ℚ
  | [] => []
  | r :: rs =>
    match bhRunMin rs with
    | [] => [min 1 r]
    | q :: qs => min q r :: q :: qs

/-- Benjamini-Hochberg adjustment (`_add_bh_q_values`): rows are identified with their
parsed p-cells; the result is the list of parsed q-cells (`none` = empty string).
Mirrors the source: collect numeric p's with their row indices, sort ascending by p
(a stable sort, like Python's `sorted`), sweep the running minimum from the largest
rank down, then scatter the q's back to the original row indices through the
`idx_to_q` association. -/
def _add_bh_q_values (rows : List (Option ℚ)) : List (Option ℚ) :=
  let items := pItems rows
  let m := items.length
  if m = 0 then
    rows.map (fun _ => none)
  else
    let ranked := List.insertionSort rankLE items
    let q_tmp := bhRunMin (bhRatios (ranked.map Prod.snd) m)
    let idx_to_q := (ranked.map Prod.fst).zip q_tmp
    (List.range rows.length).map (fun i => idx_to_q.lookup i)

/-- Minimum of a non-empty list (`1` on the empty list, which is never used). -/
def listMin1 : List ℚ → ℚ
  | [] => 1
  | [x] => x
  | x :: y :: xs => min x (listMin1 (y :: xs))

/-- The q-value formula stated by the specification: with p-values sorted ascending
and 1-indexed rank `r` over the `m` numeric p's, `q[r] = min over ranks r' ≥ r of
p[r'] * m / r'`.  (`sortedPs` is the ascending list; rank `r` is position `r - 1`.) -/
def bhSpecQ (sortedPs : List ℚ) (m r : ℕ) : ℚ :=
  listMin1 ((bhRatios sortedPs m).drop (r - 1))

/-- The ranked items (ascending, stable) of `_add_bh_q_values`. -/
def bhRanked (rows : List (Option ℚ)) : List (ℕ × ℚ) :=
  List.insertionSort rankLE (pItems rows)

/-! ### Supporting lemmas about `pItemsFrom`, association lookup and the sweep -/

theorem mem_of_getElem?_eq {α : Type} {l : List α} {k : ℕ} {a : α} (h : l[k]? = some a) :
    a ∈ l := by
  obtain ⟨hlt, rfl⟩ := List.getElem?_eq_some.mp h
  exact List.getElem_mem hlt

theorem pItemsFrom_sound {j : ℕ} {p : ℚ} :
    ∀ {rows : List (Option ℚ)} {i : ℕ}, (j, p) ∈ pItemsFrom i rows →
      i ≤ j ∧ rows[j - i]? = some (some p) := by
  intro rows
  induction rows with
  | nil => intro i h; simp [pItemsFrom] at h
  | cons r rest ih =>
    intro i h
    cases r with
    | none =>
      simp only [pItemsFrom] at h
      obtain ⟨h1, h2⟩ := ih h
      refine ⟨by omega, ?_⟩
      have hj : j - i = (j - (i + 1)) + 1 := by omega
      rw [hj]
      simpa using h2
    | some p' =>
      simp only [pItemsFrom] at h
      rcases List.mem_cons.mp h with heq | hmem
      · injection heq with hj hp
        subst hj; subst hp
        simp
      · obtain ⟨h1, h2⟩ := ih hmem
        refine ⟨by omega, ?_⟩
        have hj : j - i = (j - (i + 1)) + 1 := by omega
        rw [hj]
        simpa using h2

theorem pItemsFrom_complete {p : ℚ} :
    ∀ {rows : List (Option ℚ)} {k : ℕ}, rows[k]? = some (some p) →
      ∀ i, (i + k, p) ∈ pItemsFrom i rows := by
  intro rows
  induction rows with
  | nil => intro k h; simp at h
  | cons r rest ih =>
    intro k h i
    cases k with
    | zero =>
      simp at h
      subst h
      simp [pItemsFrom]
    | succ k' =>
      have h' : rest[k']? = some (some p) := by simpa using h
      have := ih h' (i + 1)
      have harith : i + 1 + k' = i + (k' + 1) := by omega
      rw [harith] at this
      cases r with
      | none => exact this
      | some q => exact List.mem_cons_of_mem _ this

theorem pItemsFrom_pairwise :
    ∀ (rows : List (Option ℚ)) (i : ℕ),
      (pItemsFrom i rows).Pairwise (fun a b => a.1 < b.1) := by
  intro rows
  induction rows with
  | nil => intro i; simp [pItemsFrom]
  | cons r rest ih =>
    intro i
    cases r with
    | none => exact ih (i + 1)
    | some p =>
      refine List.pairwise_cons.mpr ⟨?_, ih (i + 1)⟩
      intro b hb
      have := (pItemsFrom_sound hb).1
      simpa using by omega

/-- `List.lookup` misses keys that are absent. -/
theorem lookup_zip_eq_none {i : ℕ} :
    ∀ {keys : List ℕ} {vals : List ℚ}, i ∉ keys → (keys.zip vals).lookup i = none := by
  intro keys
  induction keys with
  | nil => intro vals _; simp [List.lookup]
  | cons k ks ih =>
    intro vals h
    cases vals with
    | nil => simp [List.lookup]
    | cons v vs =>
      have hik : i ≠ k := fun hc => h (hc ▸ List.mem_cons_self k ks)
      have : (i == k) = false := beq_false_of_ne hik
      simp only [List.zip_cons_cons, List.lookup, this]
      exact ih (fun hc => h (List.mem_cons_of_mem _ hc))

/-- With distinct keys, `List.lookup` on a zip retrieves the positionally matching value. -/
theorem lookup_zip_getElem :
    ∀ {keys : List ℕ} {vals : List ℚ} {k j : ℕ} {v : ℚ}, keys.Nodup →
      keys[k]? = some j → vals[k]? = some v → (keys.zip vals).lookup j = some v := by
  intro keys
  induction keys with
  | nil => intro vals k j v _ hk; simp at hk
  | cons a ks ih =>
    intro vals k j v hnd hk hv
    cases vals with
    | nil => simp at hv
    | cons b vs =>
      cases k with
      | zero =>
        simp at hk hv
        subst hk; subst hv
        simp [List.lookup]
      | succ k' =>
        have hk' : ks[k']? = some j := by simpa using hk
        have hv' : vs[k']? = some v := by simpa using hv
        have hj : j ∈ ks := mem_of_getElem?_eq hk'
        have haj : a ≠ j := fun hc => (List.nodup_cons.mp hnd).1 (hc ▸ hj)
        have : (j == a) = false := beq_false_of_ne (Ne.symm haj)
        simp only [List.zip_cons_cons, List.lookup, this]
        exact ih (List.nodup_cons.mp hnd).2 hk' hv'

/-- A successful `List.lookup` exhibits a member pair. -/
theorem lookup_mem {i : ℕ} {v : ℚ} :
    ∀ {l : List (ℕ × ℚ)}, l.lookup i = some v → (i, v) ∈ l := by
  intro l
  induction l with
  | nil => intro h; simp [List.lookup] at h
  | cons kb rest ih =>
    intro h
    obtain ⟨k, b⟩ := kb
    by_cases hik : i = k
    · subst hik
      simp only [List.lookup, beq_self_eq_true] at h
      injection h with h
      subst h
      exact List.mem_cons_self _ _
    · have : (i == k) = false := beq_false_of_ne hik
      simp only [List.lookup, this] at h
      exact List.mem_cons_of_mem _ (ih h)

theorem listMin1_le_of_mem {x : ℚ} : ∀ {l : List ℚ}, x ∈ l → listMin1 l ≤ x := by
  intro l
  induction l with
  | nil => intro h; simp at h
  | cons a l ih =>
    intro hx
    cases l with
    | nil =>
      rcases List.mem_singleton.mp hx with rfl
      exact le_refl _
    | cons b bs =>
      rcases List.mem_cons.mp hx with rfl | hmem
      · exact min_le_left _ _
      · exact le_trans (min_le_right _ _) (ih hmem)

theorem le_listMin1 {c : ℚ} : ∀ {l : List ℚ}, l ≠ [] → (∀ x ∈ l, c ≤ x) → c ≤ listMin1 l := by
  intro l
  induction l with
  | nil => intro h; exact absurd rfl h
  | cons a l ih =>
    intro _ hall
    cases l with
    | nil => exact hall a (List.mem_singleton.mpr rfl)
    | cons b bs =>
      refine le_min (hall a (List.mem_cons_self _ _)) (ih (by simp) ?_)
      intro x hx
      exact hall x (List.mem_cons_of_mem _ hx)

theorem length_bhRunMin : ∀ l : List ℚ, (bhRunMin l).length = l.length := by
  intro l
  induction l with
  | nil => rfl
  | cons r rs ih =>
    simp only [bhRunMin]
    cases h : bhRunMin rs with
    | nil =>
      rw [h] at ih
      simp [← ih]
    | cons q qs =>
      rw [h] at ih
      simp at ih ⊢
      omega

theorem bhRunMin_cons (r : ℚ) (rs : List ℚ) :
    bhRunMin (r :: rs) =
      match bhRunMin rs with
      | [] => [min 1 r]
      | q :: qs => min q r :: q :: qs := rfl

theorem bhRunMin_getElem? :
    ∀ (l : List ℚ) (k : ℕ), k < l.length →
      (bhRunMin l)[k]? = some (min 1 (listMin1 (l.drop k))) := by
  intro l
  induction l with
  | nil => intro k hk; simp at hk
  | cons r rs ih =>
    intro k hk
    cases hrs : bhRunMin rs with
    | nil =>
      have hlen := length_bhRunMin rs
      rw [hrs] at hlen
      have hrsnil : rs = [] := List.length_eq_zero.mp hlen.symm
      subst hrsnil
      have hk0 : k = 0 := by simpa using hk
      subst hk0
      simp [bhRunMin, listMin1]
    | cons q qs =>
      have hlen := length_bhRunMin rs
      rw [hrs] at hlen
      have hrsne : rs ≠ [] := by
        intro hc; rw [hc] at hlen; simp at hlen
      obtain ⟨s, ss, rfl⟩ := List.exists_cons_of_ne_nil hrsne
      have hq : q = min 1 (listMin1 (s :: ss)) := by
        have h0 := ih 0 (by simp)
        rw [hrs] at h0
        simpa using h0
      have hcons : bhRunMin (r :: s :: ss) = min q r :: q :: qs := by
        rw [bhRunMin_cons, hrs]
      rw [hcons]
      cases k with
      | zero =>
        simp only [List.getElem?_cons_zero, List.drop_zero]
        have hl : listMin1 (r :: s :: ss) = min r (listMin1 (s :: ss)) := rfl
        rw [hl, hq]
        rw [min_assoc, min_comm (listMin1 (s :: ss)) r]
      | succ k' =>
        have hk' : k' < (s :: ss).length := by simpa using hk
        have hval := ih k' hk'
        rw [hrs] at hval
        simpa using hval

theorem length_bhRatiosFrom (m : ℕ) : ∀ (k : ℕ) (ps : List ℚ),
    (bhRatiosFrom m k ps).length = ps.length := by
  intro k ps
  induction ps generalizing k with
  | nil => rfl
  | cons p ps ih => simp [bhRatiosFrom, ih]

theorem getElem?_bhRatiosFrom (m : ℕ) :
    ∀ (ps : List ℚ) (k j : ℕ),
      (bhRatiosFrom m k ps)[j]? =
        ps[j]?.map (fun p => p * (m : ℚ) / (((k + j : ℕ) : ℚ) + 1)) := by
  intro ps
  induction ps with
  | nil => intro k j; simp [bhRatiosFrom]
  | cons p ps ih =>
    intro k j
    cases j with
    | zero => simp [bhRatiosFrom]
    | succ j' =>
      simp only [bhRatiosFrom, List.getElem?_cons_succ]
      rw [ih (k + 1) j']
      have : k + 1 + j' = k + (j' + 1) := by omega
      rw [this]

theorem getElem?_bhRatios (ps : List ℚ) (m j : ℕ) :
    (bhRatios ps m)[j]? = ps[j]?.map (fun p => p * (m : ℚ) / ((j : ℚ) + 1)) := by
  have := getElem?_bhRatiosFrom m ps 0 j
  simpa [bhRatios] using this

theorem length_bhRatios (ps : List ℚ) (m : ℕ) : (bhRatios ps m).length = ps.length :=
  length_bhRatiosFrom m 0 ps

theorem getElem?_of_mem_eq {α : Type} {l : List α} {a : α} (h : a ∈ l) :
    ∃ i : ℕ, l[i]? = some a := by
  obtain ⟨i, hi, he⟩ := List.getElem_of_mem h
  exact ⟨i, by rw [List.getElem?_eq_getElem hi, he]⟩

theorem bhRanked_perm (rows : List (Option ℚ)) : List.Perm (bhRanked rows) (pItems rows) :=
  List.perm_insertionSort rankLE (pItems rows)

theorem bhRanked_sorted (rows : List (Option ℚ)) : List.Sorted rankLE (bhRanked rows) :=
  List.sorted_insertionSort rankLE (pItems rows)

theorem length_bhRanked (rows : List (Option ℚ)) :
    (bhRanked rows).length = (pItems rows).length :=
  (bhRanked_perm rows).length_eq

theorem bhKeys_nodup (rows : List (Option ℚ)) : ((bhRanked rows).map Prod.fst).Nodup := by
  have hp : ((pItems rows).map Prod.fst).Nodup :=
    List.Pairwise.map _ (fun a b hab => Nat.ne_of_lt hab) (pItemsFrom_pairwise rows 0)
  exact ((bhRanked_perm rows).map Prod.fst).nodup_iff.mpr hp

theorem bhRanked_mem_rows {rows : List (Option ℚ)} {idx : ℕ} {p : ℚ}
    (h : (idx, p) ∈ bhRanked rows) : rows[idx]? = some (some p) := by
  have hm : (idx, p) ∈ pItems rows := (bhRanked_perm rows).mem_iff.mp h
  have hm' : (idx, p) ∈ pItemsFrom 0 rows := hm
  have := pItemsFrom_sound hm'
  simpa using this.2

/-- Snd projection of the ranked items: the p-values in ascending order. -/
def bhSortedPs (rows : List (Option ℚ)) : List ℚ := (bhRanked rows).map Prod.snd

theorem bhSortedPs_sorted (rows : List (Option ℚ)) : (bhSortedPs rows).Pairwise (· ≤ ·) :=
  List.Pairwise.map _ (fun _ _ hab => hab) (bhRanked_sorted rows)

theorem length_bhSortedPs (rows : List (Option ℚ)) :
    (bhSortedPs rows).length = (pItems rows).length := by
  simp [bhSortedPs, length_bhRanked]

theorem mem_bhSortedPs {rows : List (Option ℚ)} {p : ℚ} (h : p ∈ bhSortedPs rows) :
    ∃ i : ℕ, rows[i]? = some (some p) := by
  obtain ⟨a, ha, hae⟩ := List.mem_map.mp h
  obtain ⟨idx, p'⟩ := a
  cases hae
  exact ⟨idx, bhRanked_mem_rows ha⟩

theorem _add_bh_q_values_eq_lookup {rows : List (Option ℚ)} (h : pItems rows ≠ []) :
    _add_bh_q_values rows =
      (List.range rows.length).map (fun i =>
        (((bhRanked rows).map Prod.fst).zip
          (bhRunMin (bhRatios (bhSortedPs rows) (pItems rows).length))).lookup i) := by
  simp only [_add_bh_q_values, bhRanked, bhSortedPs]
  rw [if_neg (by simpa [List.length_eq_zero] using h)]

theorem bh_out_at {rows : List (Option ℚ)} {k idx : ℕ} {p : ℚ}
    (h : (bhRanked rows)[k]? = some (idx, p)) :
    (_add_bh_q_values rows)[idx]? =
      some (some (min 1
        (listMin1 ((bhRatios (bhSortedPs rows) (pItems rows).length).drop k)))) := by
  have hmemr : (idx, p) ∈ bhRanked rows := mem_of_getElem?_eq h
  have hrow : rows[idx]? = some (some p) := bhRanked_mem_rows hmemr
  have hidx : idx < rows.length := (List.getElem?_eq_some.mp hrow).1
  have hne : pItems rows ≠ [] := by
    intro hc
    have hnil : bhRanked rows = [] := by
      have := length_bhRanked rows
      rw [hc] at this
      exact List.length_eq_zero.mp (by simpa using this)
    rw [hnil] at h
    simp at h
  have hk : k < (bhRanked rows).length := (List.getElem?_eq_some.mp h).1
  rw [_add_bh_q_values_eq_lookup hne, List.getElem?_map, List.getElem?_range hidx,
    Option.map_some']
  have hkeys : ((bhRanked rows).map Prod.fst)[k]? = some idx := by
    rw [List.getElem?_map, h]
    rfl
  have hvals :
      (bhRunMin (bhRatios (bhSortedPs rows) (pItems rows).length))[k]? =
        some (min 1 (listMin1 ((bhRatios (bhSortedPs rows) (pItems rows).length).drop k))) := by
    apply bhRunMin_getElem?
    rw [length_bhRatios, length_bhSortedPs, ← length_bhRanked]
    exact hk
  exact congrArg some (lookup_zip_getElem (bhKeys_nodup rows) hkeys hvals)

theorem bh_out_none {rows : List (Option ℚ)} {i : ℕ} (h : rows[i]? = some none) :
    (_add_bh_q_values rows)[i]? = some none := by
  have hi : i < rows.length := (List.getElem?_eq_some.mp h).1
  by_cases hm : pItems rows = []
  · simp only [_add_bh_q_values]
    rw [if_pos (by simpa [List.length_eq_zero] using hm)]
    rw [List.getElem?_map, h]
    rfl
  · rw [_add_bh_q_values_eq_lookup hm, List.getElem?_map, List.getElem?_range hi,
      Option.map_some']
    refine congrArg some (lookup_zip_eq_none ?_)
    intro hmem
    obtain ⟨a, ha, hae⟩ := List.mem_map.mp hmem
    obtain ⟨idx, p⟩ := a
    cases hae
    have := bhRanked_mem_rows ha
    rw [h] at this
    exact Option.noConfusion (Option.some.inj this)

theorem bh_out_val {rows : List (Option ℚ)} {i : ℕ} {q : ℚ}
    (h : (_add_bh_q_values rows)[i]? = some (some q)) :
    ∃ k, k < (bhRatios (bhSortedPs rows) (pItems rows).length).length ∧
      q = min 1 (listMin1 ((bhRatios (bhSortedPs rows) (pItems rows).length).drop k)) := by
  by_cases hm : pItems rows = []
  · exfalso
    simp only [_add_bh_q_values] at h
    rw [if_pos (by simpa [List.length_eq_zero] using hm)] at h
    rw [List.getElem?_map] at h
    cases hrow : rows[i]? with
    | none => rw [hrow] at h; simp at h
    | some r => rw [hrow] at h; simp at h
  · have hi : i < rows.length := by
      have := (List.getElem?_eq_some.mp h).1
      rw [_add_bh_q_values_eq_lookup hm] at this
      simpa using this
    rw [_add_bh_q_values_eq_lookup hm, List.getElem?_map, List.getElem?_range hi,
      Option.map_some'] at h
    have hl := Option.some.inj h
    have hmem := lookup_mem hl
    have hq : q ∈ bhRunMin (bhRatios (bhSortedPs rows) (pItems rows).length) :=
      (List.of_mem_zip hmem).2
    obtain ⟨k, hk⟩ := getElem?_of_mem_eq hq
    have hklen : k < (bhRunMin (bhRatios (bhSortedPs rows) (pItems rows).length)).length :=
      (List.getElem?_eq_some.mp hk).1
    rw [length_bhRunMin] at hklen
    refine ⟨k, hklen, ?_⟩
    rw [bhRunMin_getElem? _ k hklen] at hk
    exact (Option.some.inj hk).symm

theorem drop_ne_nil {l : List ℚ} {k : ℕ} (hk : k < l.length) : l.drop k ≠ [] := by
  intro hc
  have := congrArg List.length hc
  rw [List.length_drop] at this
  simp at this
  omega

theorem bhRatios_nonneg {rows : List (Option ℚ)}
    (hp : ∀ (i : ℕ) (p : ℚ), rows[i]? = some (some p) → 0 ≤ p) :
    ∀ x ∈ bhRatios (bhSortedPs rows) (pItems rows).length, 0 ≤ x := by
  intro x hx
  obtain ⟨j, hj⟩ := getElem?_of_mem_eq hx
  rw [getElem?_bhRatios] at hj
  cases hps : (bhSortedPs rows)[j]? with
  | none => rw [hps] at hj; simp at hj
  | some p =>
    rw [hps, Option.map_some'] at hj
    obtain ⟨i, hrow⟩ := mem_bhSortedPs (mem_of_getElem?_eq hps)
    have hp0 : 0 ≤ p := hp i p hrow
    have hx' : x = p * ((pItems rows).length : ℚ) / ((j : ℚ) + 1) := (Option.some.inj hj).symm
    rw [hx']
    have h2 : (0:ℚ) < (j : ℚ) + 1 := by positivity
    exact div_nonneg (mul_nonneg hp0 (Nat.cast_nonneg _)) (le_of_lt h2)

theorem bh_suffix_min_le_one {rows : List (Option ℚ)}
    (hp1 : ∀ (i : ℕ) (p : ℚ), rows[i]? = some (some p) → p ≤ 1)
    {k : ℕ} (hk : k < (pItems rows).length) :
    listMin1 ((bhRatios (bhSortedPs rows) (pItems rows).length).drop k) ≤ 1 := by
  have hm1 : (pItems rows).length - 1 < (bhSortedPs rows).length := by
    rw [length_bhSortedPs]; omega
  obtain ⟨p, hps⟩ : ∃ p, (bhSortedPs rows)[(pItems rows).length - 1]? = some p :=
    ⟨_, List.getElem?_eq_getElem hm1⟩
  obtain ⟨i, hrow⟩ := mem_bhSortedPs (mem_of_getElem?_eq hps)
  have hple : p ≤ 1 := hp1 i p hrow
  have hmpos : 1 ≤ (pItems rows).length := by omega
  have hcast : (((pItems rows).length - 1 : ℕ) : ℚ) + 1 = ((pItems rows).length : ℚ) := by
    rw [Nat.cast_sub hmpos]
    ring
  have hmne : ((pItems rows).length : ℚ) ≠ 0 := by
    have : (0:ℚ) < ((pItems rows).length : ℚ) := by exact_mod_cast Nat.lt_of_lt_of_le Nat.zero_lt_one hmpos
    exact ne_of_gt this
  have hratio :
      (bhRatios (bhSortedPs rows) (pItems rows).length)[(pItems rows).length - 1]? = some p := by
    rw [getElem?_bhRatios, hps, Option.map_some']
    congr 1
    rw [hcast, mul_div_assoc, div_self hmne, mul_one]
  have hpos : k + ((pItems rows).length - 1 - k) = (pItems rows).length - 1 := by omega
  have hdropel :
      ((bhRatios (bhSortedPs rows) (pItems rows).length).drop k)[(pItems rows).length - 1 - k]?
        = some p := by
    rw [List.getElem?_drop, hpos, hratio]
  calc listMin1 ((bhRatios (bhSortedPs rows) (pItems rows).length).drop k)
      ≤ p := listMin1_le_of_mem (mem_of_getElem?_eq hdropel)
    _ ≤ 1 := hple

theorem listMin1_drop_mono (l : List ℚ) {k k' : ℕ} (hkk : k ≤ k') (hk' : k' < l.length) :
    listMin1 (l.drop k) ≤ listMin1 (l.drop k') := by
  apply le_listMin1 (drop_ne_nil hk')
  intro x hx
  apply listMin1_le_of_mem
  have hsub : l.drop k' ⊆ l.drop k := by
    have : l.drop k' = (l.drop k).drop (k' - k) := by
      rw [List.drop_drop]
      congr 1
      omega
    rw [this]
    exact List.drop_subset _ _
  exact hsub hx

theorem bh_ratio_ge_sortedP {rows : List (Option ℚ)}
    (hp : ∀ (i : ℕ) (p : ℚ), rows[i]? = some (some p) → 0 ≤ p ∧ p ≤ 1)
    {k : ℕ} {p : ℚ} (hps : (bhSortedPs rows)[k]? = some p) :
    ∀ x ∈ (bhRatios (bhSortedPs rows) (pItems rows).length).drop k, p ≤ x := by
  intro x hx
  obtain ⟨j, hj⟩ := getElem?_of_mem_eq hx
  rw [List.getElem?_drop, getElem?_bhRatios] at hj
  cases hps' : (bhSortedPs rows)[k + j]? with
  | none => rw [hps'] at hj; simp at hj
  | some p' =>
    rw [hps', Option.map_some'] at hj
    have hkj : k + j < (bhSortedPs rows).length := (List.getElem?_eq_some.mp hps').1
    have hpp' : p ≤ p' := by
      cases Nat.eq_zero_or_pos j with
      | inl hj0 =>
        subst hj0
        rw [Nat.add_zero] at hps'
        rw [hps'] at hps
        exact le_of_eq (Option.some.inj hps).symm
      | inr hjpos =>
        have hklt : k < k + j := by omega
        have hk' : k < (bhSortedPs rows).length := by omega
        have hg := List.pairwise_iff_getElem.mp (bhSortedPs_sorted rows) k (k + j) hk' hkj hklt
        have hpk : (bhSortedPs rows)[k] = p := by
          have := List.getElem?_eq_getElem hk'
          rw [hps] at this
          exact (Option.some.inj this).symm
        have hpkj : (bhSortedPs rows)[k + j] = p' := by
          have := List.getElem?_eq_getElem hkj
          rw [hps'] at this
          exact (Option.some.inj this).symm
        rw [hpk, hpkj] at hg
        exact hg
    obtain ⟨i', hrow'⟩ := mem_bhSortedPs (mem_of_getElem?_eq hps')
    have hp'01 := hp i' p' hrow'
    have hx' : x = p' * ((pItems rows).length : ℚ) / (((k + j : ℕ) : ℚ) + 1) :=
      (Option.some.inj hj).symm
    have hd : (0:ℚ) < ((k + j : ℕ) : ℚ) + 1 := by positivity
    have hmd : (((k + j : ℕ) : ℚ) + 1) ≤ ((pItems rows).length : ℚ) := by
      rw [← length_bhSortedPs]
      have : (k + j) + 1 ≤ (bhSortedPs rows).length := hkj
      exact_mod_cast this
    have hge : p' ≤ p' * ((pItems rows).length : ℚ) / (((k + j : ℕ) : ℚ) + 1) := by
      have h1 : p' * (((k + j : ℕ) : ℚ) + 1) ≤ p' * ((pItems rows).length : ℚ) :=
        mul_le_mul_of_nonneg_left hmd hp'01.1
      have h2 : p' * (((k + j : ℕ) : ℚ) + 1) / (((k + j : ℕ) : ℚ) + 1) = p' :=
        mul_div_cancel_right₀ p' (ne_of_gt hd)
      calc p' = p' * (((k + j : ℕ) : ℚ) + 1) / (((k + j : ℕ) : ℚ) + 1) := h2.symm
        _ ≤ p' * ((pItems rows).length : ℚ) / (((k + j : ℕ) : ℚ) + 1) :=
          (div_le_div_iff_of_pos_right hd).mpr h1
    rw [hx']
    exact le_trans hpp' hge

/-- Concrete evaluation of the spec's worked example. -/
theorem bhExample_eval :
    _add_bh_q_values [some (1/100), some (4/100), some (3/100)] =
      [some (3/100), some (4/100), some (4/100)] := by
  norm_num [_add_bh_q_values, pItems, pItemsFrom, List.insertionSort, List.orderedInsert,
    rankLE, bhRatios, bhRatiosFrom, bhRunMin, List.range_succ, List.lookup]
  exact ⟨rfl, rfl⟩

theorem bhExample_ranked :
    bhRanked [some (1/100), some (4/100), some (3/100)] =
      [(0, 1/100), (2, 3/100), (1, 4/100)] := by
  norm_num [bhRanked, pItems, pItemsFrom, List.insertionSort, List.orderedInsert, rankLE]

theorem bhExample_valid :
    ∀ (i : ℕ) (p : ℚ),
      ([some (1/100), some (4/100), some (3/100)] : List (Option ℚ))[i]? = some (some p) →
      0 ≤ p ∧ p ≤ 1 := by
  intro i p hip
  rcases i with _ | _ | _ | i
  · simp at hip; subst hip; norm_num
  · simp at hip; subst hip; norm_num
  · simp at hip; subst hip; norm_num
  · simp at hip

/-! ### Claims about the BH adjustment -/

/-- C1 (amended): missing/non-numeric p-cells keep an empty q; for the row of
1-indexed rank `r = k + 1` in the ascending order of the `m` numeric p's, the
assigned q equals `min 1 (min over ranks r' ≥ r of p[r'] * m / r')` — the sweep's
running minimum starts at 1.0, so the raw min is capped at 1; when every numeric
p is at most 1 the cap is inactive and the q is exactly the claimed minimum;
`m = 0` leaves every q blank; and the worked example p = [0.01, 0.04, 0.03]
yields q = [0.03, 0.04, 0.04] in input order. -/
theorem claim_C1_bh_adjustment (rows : List (Option ℚ)) :
    (∀ i : ℕ, rows[i]? = some none → (_add_bh_q_values rows)[i]? = some none) ∧
    (∀ (k idx : ℕ) (p : ℚ), (bhRanked rows)[k]? = some (idx, p) →
      (_add_bh_q_values rows)[idx]? =
        some (some (min 1 (bhSpecQ (bhSortedPs rows) (pItems rows).length (k + 1))))) ∧
    ((∀ (i : ℕ) (p : ℚ), rows[i]? = some (some p) → p ≤ 1) →
      ∀ (k idx : ℕ) (p : ℚ), (bhRanked rows)[k]? = some (idx, p) →
        (_add_bh_q_values rows)[idx]? =
          some (some (bhSpecQ (bhSortedPs rows) (pItems rows).length (k + 1)))) ∧
    (pItems rows = [] → _add_bh_q_values rows = rows.map (fun _ => none)) ∧
    _add_bh_q_values [some (1/100), some (4/100), some (3/100)] =
      [some (3/100), some (4/100), some (4/100)] := by
  refine ⟨fun i h => bh_out_none h, ?_, ?_, ?_, bhExample_eval⟩
  · intro k idx p h
    rw [bh_out_at h]
    rfl
  · intro hp1 k idx p h
    rw [bh_out_at h]
    have hk : k < (pItems rows).length := by
      have := (List.getElem?_eq_some.mp h).1
      rw [length_bhRanked] at this
      exact this
    have hle := bh_suffix_min_le_one hp1 hk
    have : bhSpecQ (bhSortedPs rows) (pItems rows).length (k + 1) =
        listMin1 ((bhRatios (bhSortedPs rows) (pItems rows).length).drop k) := rfl
    rw [this]
    rw [min_eq_right hle]
  · intro h
    simp only [_add_bh_q_values]
    rw [if_pos (by simpa [List.length_eq_zero] using h)]

/-- C1 counterexample: on the single-row input with (non-p-value) numeric cell 2.0
the code assigns q = 1 (the sweep's cap), while the claim's formula
`min over r' ≥ r of p[r'] * m / r'` gives 2. -/
theorem claim_C1_counterexample :
    (bhRanked [some 2])[0]? = some (0, 2) ∧
    (_add_bh_q_values [some 2])[0]? ≠
      some (some (bhSpecQ (bhSortedPs [some 2]) (pItems [some 2]).length (0 + 1))) ∧
    (_add_bh_q_values [some 2])[0]? = some (some 1) ∧
    bhSpecQ (bhSortedPs [some 2]) (pItems [some 2]).length (0 + 1) = 2 := by
  have h1 : (_add_bh_q_values [some 2]) = [some 1] := by
    norm_num [_add_bh_q_values, pItems, pItemsFrom, List.insertionSort, List.orderedInsert,
      rankLE, bhRatios, bhRatiosFrom, bhRunMin, List.range_succ, List.lookup]
  have h2 : bhSpecQ (bhSortedPs [some 2]) (pItems [some 2]).length (0 + 1) = 2 := by
    norm_num [bhSpecQ, bhSortedPs, bhRanked, pItems, pItemsFrom, List.insertionSort,
      List.orderedInsert, rankLE, bhRatios, bhRatiosFrom, listMin1]
  refine ⟨?_, ?_, ?_, h2⟩
  · norm_num [bhRanked, pItems, pItemsFrom, List.insertionSort, List.orderedInsert, rankLE]
  · rw [h1, h2]
    norm_num
  · rw [h1]
    rfl

/-- C8: for p-value rows all in [0, 1], the BH q-values are non-decreasing along the
ascending-p order, and each numeric row's q is at least its p (exactly, since the
model uses exact rational arithmetic). -/
theorem claim_C8_bh_monotone (rows : List (Option ℚ))
    (hp : ∀ (i : ℕ) (p : ℚ), rows[i]? = some (some p) → 0 ≤ p ∧ p ≤ 1) :
    (∀ (k k' idx idx' : ℕ) (p p' q q' : ℚ), k ≤ k' →
      (bhRanked rows)[k]? = some (idx, p) → (bhRanked rows)[k']? = some (idx', p') →
      (_add_bh_q_values rows)[idx]? = some (some q) →
      (_add_bh_q_values rows)[idx']? = some (some q') → q ≤ q') ∧
    (∀ (k idx : ℕ) (p q : ℚ), (bhRanked rows)[k]? = some (idx, p) →
      (_add_bh_q_values rows)[idx]? = some (some q) → p ≤ q) := by
  constructor
  · intro k k' idx idx' p p' q q' hkk h h' hq hq'
    rw [bh_out_at h] at hq
    rw [bh_out_at h'] at hq'
    have hqe := Option.some.inj (Option.some.inj hq)
    have hq'e := Option.some.inj (Option.some.inj hq')
    rw [← hqe, ← hq'e]
    have hk'len : k' < (bhRatios (bhSortedPs rows) (pItems rows).length).length := by
      rw [length_bhRatios, length_bhSortedPs, ← length_bhRanked]
      exact (List.getElem?_eq_some.mp h').1
    exact min_le_min (le_refl 1) (listMin1_drop_mono _ hkk hk'len)
  · intro k idx p q h hq
    rw [bh_out_at h] at hq
    have hqe := Option.some.inj (Option.some.inj hq)
    rw [← hqe]
    have hklen : k < (bhRatios (bhSortedPs rows) (pItems rows).length).length := by
      rw [length_bhRatios, length_bhSortedPs, ← length_bhRanked]
      exact (List.getElem?_eq_some.mp h).1
    have hps : (bhSortedPs rows)[k]? = some p := by
      rw [bhSortedPs, List.getElem?_map, h]
      rfl
    have hp1 : p ≤ 1 := by
      have hrow := bhRanked_mem_rows (mem_of_getElem?_eq h)
      exact (hp idx p hrow).2
    refine le_min hp1 (le_listMin1 (drop_ne_nil hklen) ?_)
    exact bh_ratio_ge_sortedP hp hps

theorem claim_C8_bh_monotone_witness : (1:ℚ)/100 ≤ 3/100 := by
  have h := (claim_C8_bh_monotone [some (1/100), some (4/100), some (3/100)]
    bhExample_valid).2 0 0 (1/100) (3/100) ?hr ?ho
  · exact h
  case hr =>
    rw [bhExample_ranked]
    rfl
  case ho =>
    rw [bhExample_eval]
    rfl

/-- C10: whenever every numeric p-cell is non-negative, every q the BH adjustment
writes lies in [0, 1] — the backward sweep's running minimum starts at 1.0. -/
theorem claim_C10_bh_range (rows : List (Option ℚ))
    (hp : ∀ (i : ℕ) (p : ℚ), rows[i]? = some (some p) → 0 ≤ p) :
    ∀ (i : ℕ) (q : ℚ), (_add_bh_q_values rows)[i]? = some (some q) → 0 ≤ q ∧ q ≤ 1 := by
  intro i q h
  obtain ⟨k, hk, hqe⟩ := bh_out_val h
  rw [hqe]
  constructor
  · refine le_min (by norm_num) (le_listMin1 (drop_ne_nil hk) ?_)
    intro x hx
    exact bhRatios_nonneg hp x (List.drop_subset _ _ hx)
  · exact min_le_left _ _

theorem claim_C10_bh_range_witness :
    (0:ℚ) ≤ 3/100 ∧ (3:ℚ)/100 ≤ 1 := by
  have h := claim_C10_bh_range [some (1/100), some (4/100), some (3/100)]
    (fun i p hip => (bhExample_valid i p hip).1) 0 (3/100) ?ho
  · exact h
  case ho =>
    rw [bhExample_eval]
    rfl

/-! ### Observed group difference (`rb/randomization.py`, `_diff_d_minus_r`, `_mean`) -/

/-- Mean (`_mean`): `None` for the empty list, else `sum / len`. -/
def _mean (xs : List ℚ) : Option ℚ :=
  if xs = [] then none else some (xs.sum / (xs.length : ℚ))

/-- Values whose paired label is "D" (the loop's `sum_d`/`n_d` accumulate over these). -/
def dGroup (values : List ℚ) (labels : List String) : List ℚ :=
  ((values.zip labels).filter (fun vl => vl.2 == "D")).map Prod.fst

/-- Values whose paired label is "R". -/
def rGroup (values : List ℚ) (labels : List String) : List ℚ :=
  ((values.zip labels).filter (fun vl => vl.2 == "R")).map Prod.fst

/-- `_diff_d_minus_r`: the Python loop walks `zip(values, labels)` accumulating the
sum and count of each group; the accumulated sum and count are the sum and
length of the group's value list.  `None` iff either count is 0, else the
difference of the group means. -/
def _diff_d_minus_r (values : List ℚ) (labels : List String) : Option ℚ :=
  if (dGroup values labels).length = 0 ∨ (rGroup values labels).length = 0 then none
  else some ((dGroup values labels).sum / ((dGroup values labels).length : ℚ) -
    (rGroup values labels).sum / ((rGroup values labels).length : ℚ))

/-- Concrete evaluation of the spec's worked example for `_diff_d_minus_r`. -/
theorem diff_example_eval : _diff_d_minus_r [2, 4, 1, 1] ["D", "D", "R", "R"] = some 2 := by
  simp [_diff_d_minus_r, dGroup, rGroup]
  norm_num

/-- C9: with equal-length inputs, `_diff_d_minus_r` is `None` iff one of the two
groups is empty; otherwise it is exactly `mean(D) - mean(R)`; and the worked
example evaluates to 2. -/
theorem claim_C9_diff_d_minus_r (values : List ℚ) (labels : List String)
    (hlen : values.length = labels.length) :
    (_diff_d_minus_r values labels = none ↔
      dGroup values labels = [] ∨ rGroup values labels = []) ∧
    (∀ md mr : ℚ, _mean (dGroup values labels) = some md →
      _mean (rGroup values labels) = some mr →
      _diff_d_minus_r values labels = some (md - mr)) ∧
    _diff_d_minus_r [2, 4, 1, 1] ["D", "D", "R", "R"] = some 2 := by
  refine ⟨?_, ?_, ?_⟩
  · constructor
    · intro hn
      by_contra hc
      push_neg at hc
      rw [_diff_d_minus_r, if_neg] at hn
      · exact Option.noConfusion hn
      · push_neg
        constructor
        · simpa [List.length_eq_zero] using hc.1
        · simpa [List.length_eq_zero] using hc.2
    · intro hd
      rw [_diff_d_minus_r, if_pos]
      rcases hd with h | h
      · left; simpa [List.length_eq_zero] using h
      · right; simpa [List.length_eq_zero] using h
  · intro md mr hmd hmr
    have hdne : dGroup values labels ≠ [] := by
      intro hc
      rw [_mean, if_pos hc] at hmd
      exact Option.noConfusion hmd
    have hrne : rGroup values labels ≠ [] := by
      intro hc
      rw [_mean, if_pos hc] at hmr
      exact Option.noConfusion hmr
    rw [_mean, if_neg hdne] at hmd
    rw [_mean, if_neg hrne] at hmr
    rw [_diff_d_minus_r, if_neg]
    · rw [← Option.some.inj hmd, ← Option.some.inj hmr]
    · push_neg
      constructor
      · simpa [List.length_eq_zero] using hdne
      · simpa [List.length_eq_zero] using hrne
  · exact diff_example_eval

theorem claim_C9_diff_d_minus_r_witness :
    _diff_d_minus_r [2, 4, 1, 1] ["D", "D", "R", "R"] = some 2 :=
  (claim_C9_diff_d_minus_r [2, 4, 1, 1] ["D", "D", "R", "R"] rfl).2.2

/-! ### Two-sided permutation p-value (`_compute_term_party_permutation`, lines 394-402)

The p-value step of the permutation test reads
`extreme = sum(1 for d in perm_diffs if abs(d) >= abs(observed))` and
`p_two = (1 + extreme) / (1 + len(perm_diffs))`, guarded by
`observed is not None and perm_diffs` (the repository's unit tests exercise the same
computation under the name `_p_two_sided`). -/

def _p_two_sided (observed : Option ℚ) (perm_diffs : List ℚ) : Option ℚ :=
  match observed with
  | none => none
  | some o =>
    if perm_diffs = [] then none
    else
      some ((1 + ((perm_diffs.filter (fun d => |o| ≤ |d|)).length : ℚ)) /
        (1 + (perm_diffs.length : ℚ)))

/-- The null-distribution loop: each draw is a shuffled label vector, scored by
`_diff_d_minus_r`; draws whose statistic is `None` are skipped
(`if d is not None: perm_diffs.append(d)`).  The RNG is modelled by quantifying
over the list of shuffled label vectors the draws produce. -/
def permDiffs (values : List ℚ) (draws : List (List String)) : List ℚ :=
  draws.filterMap (fun pl => _diff_d_minus_r values pl)

theorem zip_filter_label_length :
    ∀ (values : List ℚ) (labels : List String), values.length = labels.length →
      ∀ s : String,
        (((values.zip labels).filter (fun vl => vl.2 == s)).map Prod.fst).length =
          labels.count s := by
  intro values
  induction values with
  | nil =>
    intro labels h s
    cases labels with
    | nil => simp
    | cons l ls => simp at h
  | cons v vs ih =>
    intro labels h s
    cases labels with
    | nil => simp at h
    | cons l ls =>
      have h' : vs.length = ls.length := by simpa using h
      by_cases hls : l = s
      · subst hls
        simp [List.zip_cons_cons, List.filter_cons, List.count_cons, ih ls h' l]
      · simp [List.zip_cons_cons, List.filter_cons, List.count_cons, beq_iff_eq, hls,
          ih ls h' s]

theorem dGroup_length {values : List ℚ} {labels : List String}
    (h : values.length = labels.length) :
    (dGroup values labels).length = labels.count "D" :=
  zip_filter_label_length values labels h "D"

theorem rGroup_length {values : List ℚ} {labels : List String}
    (h : values.length = labels.length) :
    (rGroup values labels).length = labels.count "R" :=
  zip_filter_label_length values labels h "R"

theorem diff_ne_none_iff {values : List ℚ} {labels : List String}
    (h : values.length = labels.length) :
    _diff_d_minus_r values labels ≠ none ↔
      labels.count "D" ≠ 0 ∧ labels.count "R" ≠ 0 := by
  rw [_diff_d_minus_r]
  by_cases hcond : (dGroup values labels).length = 0 ∨ (rGroup values labels).length = 0
  · rw [if_pos hcond]
    constructor
    · intro hc
      exact absurd rfl hc
    · intro hc
      exfalso
      rcases hcond with h0 | h0
      · exact hc.1 (by rw [← dGroup_length h]; exact h0)
      · exact hc.2 (by rw [← rGroup_length h]; exact h0)
  · rw [if_neg hcond]
    push_neg at hcond
    constructor
    · intro _
      exact ⟨by rw [← dGroup_length h]; exact hcond.1,
        by rw [← rGroup_length h]; exact hcond.2⟩
    · intro _
      exact Option.some_ne_none _

theorem permDiffs_length {values : List ℚ} {labels : List String} {draws : List (List String)}
    (hlen : values.length = labels.length)
    (hobs : _diff_d_minus_r values labels ≠ none)
    (hdr : ∀ pl ∈ draws, List.Perm pl labels) :
    (permDiffs values draws).length = draws.length := by
  induction draws with
  | nil => rfl
  | cons pl pls ih =>
    have hperm : List.Perm pl labels := hdr pl (List.mem_cons_self _ _)
    have hlen' : values.length = pl.length := by rw [hlen, hperm.length_eq]
    have hc := (diff_ne_none_iff hlen).mp hobs
    have hne : _diff_d_minus_r values pl ≠ none := by
      rw [diff_ne_none_iff hlen']
      exact ⟨by rw [hperm.count_eq]; exact hc.1, by rw [hperm.count_eq]; exact hc.2⟩
    obtain ⟨d, hd⟩ := Option.ne_none_iff_exists'.mp hne
    simp only [permDiffs, List.filterMap_cons, hd]
    have := ih (fun q hq => hdr q (List.mem_cons_of_mem _ hq))
    simp only [permDiffs] at this
    simp [this]

/-- C2: with a defined observed statistic and a positive permutation count (all
draws being label permutations), every draw's statistic is defined so the null
sample has exactly `permutations` entries; the reported two-sided p-value is
`(1 + #{|null| ≥ |observed|}) / (1 + #null)`; it lies in (0, 1]; and it is
exactly 1 when every null draw is at least as extreme as the observed value. -/
theorem claim_C2_perm_pvalue (values : List ℚ) (labels : List String)
    (draws : List (List String)) (o : ℚ)
    (hlen : values.length = labels.length)
    (hobs : _diff_d_minus_r values labels = some o)
    (hdr : ∀ pl ∈ draws, List.Perm pl labels)
    (hpos : 0 < draws.length) :
    ((permDiffs values draws).length = draws.length) ∧
    (_p_two_sided (some o) (permDiffs values draws) =
      some ((1 + (((permDiffs values draws).filter (fun d => |o| ≤ |d|)).length : ℚ)) /
        (1 + (draws.length : ℚ)))) ∧
    (∀ p : ℚ, _p_two_sided (some o) (permDiffs values draws) = some p → 0 < p ∧ p ≤ 1) ∧
    ((∀ d ∈ permDiffs values draws, |o| ≤ |d|) →
      _p_two_sided (some o) (permDiffs values draws) = some 1) := by
  have hne : _diff_d_minus_r values labels ≠ none := by
    rw [hobs]
    exact Option.some_ne_none o
  have hlen' := permDiffs_length hlen hne hdr
  have hpd_ne : permDiffs values draws ≠ [] := by
    intro hc
    rw [hc] at hlen'
    simp at hlen'
    omega
  refine ⟨hlen', ?_, ?_, ?_⟩
  · simp only [_p_two_sided]
    rw [if_neg hpd_ne, hlen']
  · intro p hp
    simp only [_p_two_sided] at hp
    rw [if_neg hpd_ne] at hp
    have hpe := (Option.some.inj hp).symm
    subst hpe
    have hden : (0:ℚ) < 1 + ((permDiffs values draws).length : ℚ) := by positivity
    constructor
    · apply div_pos ?_ hden
      positivity
    · rw [div_le_one hden]
      have hfl : ((permDiffs values draws).filter (fun d => |o| ≤ |d|)).length ≤
          (permDiffs values draws).length := List.length_filter_le _ _
      have : (((permDiffs values draws).filter (fun d => |o| ≤ |d|)).length : ℚ) ≤
          ((permDiffs values draws).length : ℚ) := by exact_mod_cast hfl
      linarith
  · intro hall
    simp only [_p_two_sided]
    rw [if_neg hpd_ne]
    have hfe : (permDiffs values draws).filter (fun d => |o| ≤ |d|) =
        permDiffs values draws :=
      List.filter_eq_self.mpr (fun a ha => decide_eq_true (hall a ha))
    rw [hfe]
    have hden : (0:ℚ) < 1 + ((permDiffs values draws).length : ℚ) := by positivity
    rw [div_self (ne_of_gt hden)]

theorem claim_C2_perm_pvalue_witness : (0:ℚ) < 1 ∧ (1:ℚ) ≤ 1 := by
  have hperm : ∀ pl ∈ [["D", "D", "R", "R"]], List.Perm pl ["D", "D", "R", "R"] := by
    intro pl hpl
    rw [List.mem_singleton] at hpl
    subst hpl
    exact List.Perm.refl _
  refine (claim_C2_perm_pvalue [2, 4, 1, 1] ["D", "D", "R", "R"] [["D", "D", "R", "R"]] 2
    rfl diff_example_eval hperm (by norm_num)).2.2.1 1 ?_
  have hpd : permDiffs [2, 4, 1, 1] [["D", "D", "R", "R"]] = [2] := by
    simp [permDiffs, diff_example_eval]
  rw [hpd]
  simp [_p_two_sided]

/-! ### Evidence tier classification (`rb/randomization.py`, `_classify_evidence`) -/

def SUPPORTIVE_Q_THRESHOLD : ℚ := 1/10

structure EvidenceResult where
  passes_q_threshold : Bool
  passes_q_lt_005 : Bool
  passes_q_lt_010 : Bool
  passes_ci_excludes_zero : Bool
  passes_min_n : Bool
  evidence_tier : String
deriving DecidableEq

/-- `_classify_evidence`: the source's "1"/"0" output strings are rendered as `Bool`
flags; `n` and `min_n` are Python ints (`ℤ`), `q`/CI bounds parsed floats
(`Option ℚ`).  `pass_q_* = q is not None and q < ...`; the tier chain is the
source's `if pass_q_threshold and pass_n ... elif pass_q_010 and pass_n ... else`. -/
def _classify_evidence (q ci_lo ci_hi : Option ℚ) (n : ℤ) (q_threshold : ℚ)
    (min_n : ℤ) : EvidenceResult :=
  let pass_q_threshold := match q with
    | some qv => decide (qv < q_threshold)
    | none => false
  let pass_q_005 := match q with
    | some qv => decide (qv < 5/100)
    | none => false
  let pass_q_010 := match q with
    | some qv => decide (qv < SUPPORTIVE_Q_THRESHOLD)
    | none => false
  let pass_ci := match ci_lo, ci_hi with
    | some lo, some hi => decide ((lo > 0 ∧ hi > 0) ∨ (lo < 0 ∧ hi < 0))
    | _, _ => false
  let pass_n := decide (n ≥ min_n)
  let tier := if pass_q_threshold && pass_n then "confirmatory"
    else if pass_q_010 && pass_n then "supportive"
    else "exploratory"
  { passes_q_threshold := pass_q_threshold
    passes_q_lt_005 := pass_q_005
    passes_q_lt_010 := pass_q_010
    passes_ci_excludes_zero := pass_ci
    passes_min_n := pass_n
    evidence_tier := tier }

theorem classify_confirmatory_iff (q ci_lo ci_hi : Option ℚ) (n : ℤ) (thr : ℚ)
    (min_n : ℤ) :
    (_classify_evidence q ci_lo ci_hi n thr min_n).evidence_tier = "confirmatory" ↔
      ∃ qv : ℚ, q = some qv ∧ qv < thr ∧ min_n ≤ n := by
  cases q with
  | none => simp [_classify_evidence]
  | some qv =>
    by_cases h1 : qv < thr <;> by_cases h2 : min_n ≤ n <;>
      by_cases h3 : qv < SUPPORTIVE_Q_THRESHOLD <;>
      simp [_classify_evidence, h1, h2, h3]

theorem classify_supportive_iff (q ci_lo ci_hi : Option ℚ) (n : ℤ) (thr : ℚ)
    (min_n : ℤ) :
    (_classify_evidence q ci_lo ci_hi n thr min_n).evidence_tier = "supportive" ↔
      (¬ ∃ qv : ℚ, q = some qv ∧ qv < thr ∧ min_n ≤ n) ∧
      ∃ qv : ℚ, q = some qv ∧ qv < SUPPORTIVE_Q_THRESHOLD ∧ min_n ≤ n := by
  cases q with
  | none => simp [_classify_evidence]
  | some qv =>
    by_cases h1 : qv < thr <;> by_cases h2 : min_n ≤ n <;>
      by_cases h3 : qv < SUPPORTIVE_Q_THRESHOLD <;>
      simp [_classify_evidence, h1, h2, h3]

theorem classify_exploratory_iff (q ci_lo ci_hi : Option ℚ) (n : ℤ) (thr : ℚ)
    (min_n : ℤ) :
    (_classify_evidence q ci_lo ci_hi n thr min_n).evidence_tier = "exploratory" ↔
      (¬ ∃ qv : ℚ, q = some qv ∧ qv < thr ∧ min_n ≤ n) ∧
      (¬ ∃ qv : ℚ, q = some qv ∧ qv < SUPPORTIVE_Q_THRESHOLD ∧ min_n ≤ n) := by
  cases q with
  | none => simp [_classify_evidence]
  | some qv =>
    by_cases h1 : qv < thr <;> by_cases h2 : min_n ≤ n <;>
      by_cases h3 : qv < SUPPORTIVE_Q_THRESHOLD <;>
      simp [_classify_evidence, h1, h2, h3]

/-- C3: the tier chain is exactly `confirmatory` iff q is present with
`q < q_threshold` and `n ≥ min_n`; otherwise `supportive` iff q is present with
`q < 0.10` and `n ≥ min_n`; otherwise `exploratory`; the CI-excludes-zero flag
never changes the tier; and for fixed n the tier is monotone in q: decreasing q
cannot demote a confirmatory row. -/
theorem claim_C3_classify_evidence (q ci_lo ci_hi : Option ℚ) (n : ℤ) (q_threshold : ℚ)
    (min_n : ℤ) :
    ((_classify_evidence q ci_lo ci_hi n q_threshold min_n).evidence_tier =
        "confirmatory" ↔ ∃ qv : ℚ, q = some qv ∧ qv < q_threshold ∧ min_n ≤ n) ∧
    ((_classify_evidence q ci_lo ci_hi n q_threshold min_n).evidence_tier =
        "supportive" ↔
      (¬ ∃ qv : ℚ, q = some qv ∧ qv < q_threshold ∧ min_n ≤ n) ∧
      ∃ qv : ℚ, q = some qv ∧ qv < SUPPORTIVE_Q_THRESHOLD ∧ min_n ≤ n) ∧
    ((_classify_evidence q ci_lo ci_hi n q_threshold min_n).evidence_tier =
        "exploratory" ↔
      (¬ ∃ qv : ℚ, q = some qv ∧ qv < q_threshold ∧ min_n ≤ n) ∧
      (¬ ∃ qv : ℚ, q = some qv ∧ qv < SUPPORTIVE_Q_THRESHOLD ∧ min_n ≤ n)) ∧
    (∀ ci_lo' ci_hi' : Option ℚ,
      (_classify_evidence q ci_lo' ci_hi' n q_threshold min_n).evidence_tier =
        (_classify_evidence q ci_lo ci_hi n q_threshold min_n).evidence_tier) ∧
    (∀ qv qv' : ℚ, qv' ≤ qv →
      (_classify_evidence (some qv) ci_lo ci_hi n q_threshold min_n).evidence_tier =
        "confirmatory" →
      (_classify_evidence (some qv') ci_lo ci_hi n q_threshold min_n).evidence_tier =
        "confirmatory") := by
  refine ⟨classify_confirmatory_iff .., classify_supportive_iff ..,
    classify_exploratory_iff .., ?_, ?_⟩
  · intro ci_lo' ci_hi'
    cases q with
    | none => simp [_classify_evidence]
    | some qv => simp [_classify_evidence]
  · intro qv qv' hle hconf
    rw [classify_confirmatory_iff] at hconf ⊢
    obtain ⟨qw, hqw, h1, h2⟩ := hconf
    exact ⟨qv', rfl, lt_of_le_of_lt hle ((Option.some.inj hqw) ▸ h1), h2⟩

/-! ### Year-block construction of the permutation test
(`_compute_term_party_permutation`, lines 368-389)

With `block_years > 0` the source computes `anchor = min(valid_years)` (0 when no
valid year), assigns bucket `b = -1` when an observation's year is `None` and
`b = (y - anchor) // block_years` otherwise, and groups indices into
`block_to_idx`; with `block_years <= 0` it uses the single block
`{0: range(len(labels))}`.  Each draw then shuffles, for every block, the
sub-list of labels at that block's indices and scatters it back
(`for j, i in enumerate(idxs): perm_labels[i] = sub[j]`). -/

def blockAnchor (years_full : List (Option ℤ)) : ℤ :=
  match years_full.filterMap id with
  | [] => 0
  | v :: vs => vs.foldl min v

/-- Bucket of one observation (`b = -1` for a missing year, Python `//` is `Int.fdiv`). -/
def blockId (block_years anchor : ℤ) : Option ℤ → ℤ
  | none => -1
  | some y => (y - anchor).fdiv block_years

def blockIds (years_full : List (Option ℤ)) (block_years : ℤ) : List ℤ :=
  if 0 < block_years then
    years_full.map (blockId block_years (blockAnchor years_full))
  else
    years_full.map (fun _ => 0)

/-- Ascending indices carrying bucket `b` (the append order of `block_to_idx[b]`). -/
def idxOfFrom (b : ℤ) : ℕ → List ℤ → List ℕ
  | _, [] => []
  | i, x :: xs => if x = b then i :: idxOfFrom b (i + 1) xs else idxOfFrom b (i + 1) xs

def blockIndices (ids : List ℤ) (b : ℤ) : List ℕ :=
  idxOfFrom b 0 ids

/-- The scatter step of one block's shuffle:
`for j, i in enumerate(idxs): perm_labels[i] = sub[j]`. -/
def scatterAt : List String → List ℕ → List String → List String
  | labels, i :: idxs, s :: sub => scatterAt (labels.set i s) idxs sub
  | labels, _, _ => labels

theorem foldl_min_le_init : ∀ (vs : List ℤ) (v : ℤ), vs.foldl min v ≤ v := by
  intro vs
  induction vs with
  | nil => intro v; exact le_refl v
  | cons w ws ih =>
    intro v
    calc (w :: ws).foldl min v = ws.foldl min (min v w) := rfl
      _ ≤ min v w := ih _
      _ ≤ v := min_le_left _ _

theorem foldl_min_le_mem {x : ℤ} : ∀ {vs : List ℤ} {v : ℤ}, x ∈ v :: vs → vs.foldl min v ≤ x := by
  intro vs
  induction vs with
  | nil =>
    intro v h
    rcases List.mem_singleton.mp h with rfl
    exact le_refl x
  | cons w ws ih =>
    intro v h
    rcases List.mem_cons.mp h with rfl | h'
    · exact foldl_min_le_init _ _
    · rcases List.mem_cons.mp h' with rfl | h''
      · calc (x :: ws).foldl min v = ws.foldl min (min v x) := rfl
          _ ≤ min v x := foldl_min_le_init _ _
          _ ≤ x := min_le_right _ _
      · exact ih (List.mem_cons_of_mem _ h'')

theorem blockAnchor_le {years_full : List (Option ℤ)} {y : ℤ}
    (h : some y ∈ years_full) : blockAnchor years_full ≤ y := by
  have hy : y ∈ years_full.filterMap id := by
    rw [List.mem_filterMap]
    exact ⟨some y, h, rfl⟩
  rw [blockAnchor]
  cases hv : years_full.filterMap id with
  | nil => rw [hv] at hy; simp at hy
  | cons v vs =>
    rw [hv] at hy
    exact foldl_min_le_mem hy

theorem scatterAt_outside {i : ℕ} :
    ∀ {labels : List String} {idxs : List ℕ} {sub : List String}, i ∉ idxs →
      (scatterAt labels idxs sub)[i]? = labels[i]? := by
  intro labels idxs
  induction idxs generalizing labels with
  | nil => intro sub _; cases sub <;> rfl
  | cons j js ih =>
    intro sub h
    cases sub with
    | nil => rfl
    | cons s ss =>
      have hij : i ≠ j := fun hc => h (hc ▸ List.mem_cons_self j js)
      have hjs : i ∉ js := fun hc => h (List.mem_cons_of_mem _ hc)
      calc (scatterAt (labels.set j s) js ss)[i]? = (labels.set j s)[i]? := ih hjs
        _ = labels[i]? := List.getElem?_set_ne (Ne.symm hij)

theorem scatterAt_at :
    ∀ {labels : List String} {idxs : List ℕ} {sub : List String}, idxs.Nodup →
      (∀ i ∈ idxs, i < labels.length) →
      ∀ {k i : ℕ} {s : String}, idxs[k]? = some i → sub[k]? = some s →
        (scatterAt labels idxs sub)[i]? = some s := by
  intro labels idxs
  induction idxs generalizing labels with
  | nil => intro sub _ _ k i s hk; simp at hk
  | cons j js ih =>
    intro sub hnd hb k i s hk hs
    cases sub with
    | nil => simp at hs
    | cons t ts =>
      cases k with
      | zero =>
        have hj : j = i := by simpa using hk
        have ht : t = s := by simpa using hs
        subst hj
        subst ht
        have hjn : j ∉ js := (List.nodup_cons.mp hnd).1
        calc (scatterAt labels (j :: js) (t :: ts))[j]?
            = (scatterAt (labels.set j t) js ts)[j]? := rfl
          _ = (labels.set j t)[j]? := scatterAt_outside hjn
          _ = some t := List.getElem?_set_self (hb j (List.mem_cons_self _ _))
      | succ k' =>
        have hk' : js[k']? = some i := by simpa using hk
        have hs' : ts[k']? = some s := by simpa using hs
        refine ih (List.nodup_cons.mp hnd).2 ?_ hk' hs'
        intro x hx
        rw [List.length_set]
        exact hb x (List.mem_cons_of_mem _ hx)

/-- C5 (amended): with a positive block size, an observation with a valid block key
goes to bucket `(key - min_key).fdiv block_size`, a non-negative number; every
observation with a missing key is assigned the one shared bucket `-1` (missing-key
observations are therefore never shuffled together with valid-key observations,
though they may be shuffled among each other); with block size 0 (or negative)
every index lands in the single global block 0; and each block's shuffle only
rewrites positions inside that block, placing the shuffled sub-list exactly at the
block's indices. -/
theorem claim_C5_block_assignment (years_full : List (Option ℤ)) (block_years : ℤ) :
    (0 < block_years →
      (∀ (i : ℕ) (y : ℤ), years_full[i]? = some (some y) →
        (blockIds years_full block_years)[i]? =
          some ((y - blockAnchor years_full).fdiv block_years) ∧
        0 ≤ (y - blockAnchor years_full).fdiv block_years) ∧
      (∀ i : ℕ, years_full[i]? = some none →
        (blockIds years_full block_years)[i]? = some (-1)) ∧
      (∀ (i j : ℕ) (y bi bj : ℤ), years_full[i]? = some none →
        years_full[j]? = some (some y) →
        (blockIds years_full block_years)[i]? = some bi →
        (blockIds years_full block_years)[j]? = some bj → bi ≠ bj)) ∧
    (block_years ≤ 0 → blockIds years_full block_years = years_full.map (fun _ => 0)) ∧
    (∀ (labels sub : List String) (idxs : List ℕ), idxs.Nodup →
      (∀ i ∈ idxs, i < labels.length) →
      (∀ i : ℕ, i ∉ idxs → (scatterAt labels idxs sub)[i]? = labels[i]?) ∧
      (∀ (k i : ℕ) (s : String), idxs[k]? = some i → sub[k]? = some s →
        (scatterAt labels idxs sub)[i]? = some s)) := by
  have hvalid : 0 < block_years → ∀ (i : ℕ) (y : ℤ), years_full[i]? = some (some y) →
      (blockIds years_full block_years)[i]? =
        some ((y - blockAnchor years_full).fdiv block_years) ∧
      0 ≤ (y - blockAnchor years_full).fdiv block_years := by
    intro hpos i y h
    constructor
    · rw [blockIds, if_pos hpos, List.getElem?_map, h]
      rfl
    · apply Int.fdiv_nonneg ?_ (le_of_lt hpos)
      have hmem : some y ∈ years_full := mem_of_getElem?_eq h
      have := blockAnchor_le hmem
      omega
  refine ⟨fun hpos => ⟨hvalid hpos, ?_, ?_⟩, ?_, ?_⟩
  · intro i h
    rw [blockIds, if_pos hpos, List.getElem?_map, h]
    rfl
  · intro i j y bi bj hi hj hbi hbj
    have h1 : bi = -1 := by
      rw [blockIds, if_pos hpos, List.getElem?_map, hi] at hbi
      exact (Option.some.inj hbi).symm
    have h2 := (hvalid hpos j y hj).1
    rw [hbj] at h2
    have h3 : bj = (y - blockAnchor years_full).fdiv block_years := Option.some.inj h2
    have h4 := (hvalid hpos j y hj).2
    omega
  · intro hle
    rw [blockIds, if_neg (by omega)]
  · intro labels sub idxs hnd hb
    exact ⟨fun i hi => scatterAt_outside hi, fun k i s hk hs => scatterAt_at hnd hb hk hs⟩

/-- C5 counterexample: with two missing-key observations and block size 1 both
observations share the bucket `-1` (`block_to_idx[-1] = [0, 1]`), not singleton
blocks, and the legal within-block shuffle ["R", "D"] of the block's labels
["D", "R"] changes observation 0's label. -/
theorem claim_C5_counterexample :
    blockIds [none, none] 1 = [-1, -1] ∧
    blockIndices (blockIds [none, none] 1) (-1) = [0, 1] ∧
    List.Perm ["R", "D"] ["D", "R"] ∧
    scatterAt ["D", "R"] (blockIndices (blockIds [none, none] 1) (-1)) ["R", "D"] =
      ["R", "D"] ∧
    (["R", "D"] : List String)[0]? ≠ (["D", "R"] : List String)[0]? := by
  refine ⟨?_, ?_, by decide, ?_, by decide⟩
  · rw [blockIds, if_pos (by norm_num)]
    rfl
  · rw [blockIds, if_pos (by norm_num)]
    rfl
  · rw [blockIds, if_pos (by norm_num)]
    rfl

/-! ### HAC / Newey-West and cluster-robust OLS (`rb/inference.py`)

`_ols_nw` and `_ols_cluster` fit `y = alpha + beta * D` by closed-form 2×2 OLS and
attach a sandwich variance.  All arithmetic up to and including `var_beta` is
field arithmetic, embedded exactly over ℚ.  The tail `(se, z, p)` applies
`math.sqrt` and the normal CDF, which are real-valued; since the claims only
concern which of the four outputs are `None`, the embedding records the branch
taken (`OlsTail`), noting that for `v ≥ 0` the source's `se = sqrt(v) <= 0` test
holds iff `v = 0`, and that `z`/`p` are computed iff `se > 0` iff `v > 0`. -/

structure Mat2 where
  m00 : ℚ
  m01 : ℚ
  m10 : ℚ
  m11 : ℚ
deriving DecidableEq

def _mat2_mul (a b : Mat2) : Mat2 :=
  ⟨a.m00 * b.m00 + a.m01 * b.m10,
   a.m00 * b.m01 + a.m01 * b.m11,
   a.m10 * b.m00 + a.m11 * b.m10,
   a.m10 * b.m01 + a.m11 * b.m11⟩

/-- The source's `1e-12` determinant/variance tolerance. -/
def EPS : ℚ := 1 / 10 ^ 12

def _mat2_inv (a : Mat2) : Option Mat2 :=
  let det := a.m00 * a.m11 - a.m01 * a.m10
  if |det| ≤ EPS then none
  else
    let inv_det := 1 / det
    some ⟨a.m11 * inv_det, -a.m01 * inv_det, -a.m10 * inv_det, a.m00 * inv_det⟩

/-- Definedness shadow of the returned `(beta, se, z, p)` tail: `noSe` is
`(beta, None, None, None)`; `seZero` is `(beta, 0.0, None, None)`; `sePos v` is
`(beta, sqrt v, z, p_two)` with `v > 0` and all four defined. -/
inductive OlsTail where
  | noSe : OlsTail
  | seZero : OlsTail
  | sePos : ℚ → OlsTail
deriving DecidableEq

/-- Guards and the OLS solve shared by the two estimators (`_ols_nw` lines
142-161, duplicated verbatim in `_ols_cluster` lines 213-231): `None` when
`n < 3`, the lengths differ, `D` has no variation (`s_d <= 0 or s_d >= n`), or
`_mat2_inv` refuses `X'X`; else `(xtx_inv, alpha, beta)`. -/
def olsCore (y : List ℚ) (d : List ℤ) : Option (Mat2 × ℚ × ℚ) :=
  let n := y.length
  if n < 3 ∨ n ≠ d.length then none
  else
    let s_d : ℚ := ((d.sum : ℤ) : ℚ)
    if s_d ≤ 0 ∨ (n : ℚ) ≤ s_d then none
    else
      let s_y := y.sum
      let s_dy := ((y.zip d).map (fun p => p.1 * (p.2 : ℚ))).sum
      let xtx : Mat2 := ⟨(n : ℚ), s_d, s_d, s_d⟩
      match _mat2_inv xtx with
      | none => none
      | some xtx_inv =>
        some (xtx_inv,
          xtx_inv.m00 * s_y + xtx_inv.m01 * s_dy,
          xtx_inv.m10 * s_y + xtx_inv.m11 * s_dy)

/-- `lag_max = max(0, min(int(nw_lags), n - 1))` (as a ℕ; `Int.toNat` is the
`max(0, ·)`). -/
def nwLagMax (nw_lags : ℤ) (n : ℕ) : ℕ := (min nw_lags ((n : ℤ) - 1)).toNat

/-- The Bartlett kernel weight `w = 1.0 - (lag / float(lag_max + 1))`. -/
def bartlettWeight (lag_max lag : ℕ) : ℚ := 1 - (lag : ℚ) / ((lag_max : ℚ) + 1)

/-- Residual-based NW meat matrix (`_ols_nw` lines 163-188): the White term
`Σ_t u_t² x_t x_tᵀ` plus, for each lag `1..lag_max`, the Bartlett-weighted
symmetric cross terms `w·u_t·u_{t-lag}·(x_t x_{t-lag}ᵀ + x_{t-lag} x_tᵀ)`
summed over `t = lag..n-1`. -/
def nwMeat (y : List ℚ) (d : List ℤ) (alpha beta : ℚ) (lag_max : ℕ) : Mat2 :=
  let n := y.length
  let u : ℕ → ℚ := fun t => y.getD t 0 - (alpha + beta * ((d.getD t 0 : ℤ) : ℚ))
  let x : ℕ → ℕ → ℚ := fun r t => if r = 0 then 1 else ((d.getD t 0 : ℤ) : ℚ)
  let sBase : ℕ → ℕ → ℚ := fun r c => ∑ t in Finset.range n, u t * u t * (x r t * x c t)
  let sLag : ℕ → ℕ → ℚ := fun r c =>
    ∑ lag in Finset.Icc 1 lag_max, ∑ t in Finset.Ico lag n,
      bartlettWeight lag_max lag * u t * u (t - lag) *
        (x r t * x c (t - lag) + x r (t - lag) * x c t)
  ⟨sBase 0 0 + sLag 0 0, sBase 0 1 + sLag 0 1, sBase 1 0 + sLag 1 0, sBase 1 1 + sLag 1 1⟩

/-- `V = (X'X)^-1 S (X'X)^-1`; the reported quantity is `V[1][1]`. -/
def sandwich (xtx_inv meat : Mat2) : ℚ :=
  (_mat2_mul (_mat2_mul xtx_inv meat) xtx_inv).m11

/-- `_ols_nw` (lines 135-203): guards, OLS solve, NW sandwich variance, then the
clamp: `var_beta` in `(-1e-12, 0)` is clamped to `0.0` (so `se = 0` and `z`/`p`
stay `None`); `var_beta <= -1e-12` returns `(beta, None, None, None)`;
`var_beta > 0` yields a defined `se`, `z` and two-sided normal p. -/
def _ols_nw (y : List ℚ) (d : List ℤ) (nw_lags : ℤ) : Option (ℚ × OlsTail) :=
  match olsCore y d with
  | none => none
  | some (xtx_inv, alpha, beta) =>
    let var_beta := sandwich xtx_inv (nwMeat y d alpha beta (nwLagMax nw_lags y.length))
    if var_beta < 0 then
      if -EPS < var_beta then some (beta, OlsTail.seZero)
      else some (beta, OlsTail.noSe)
    else if var_beta = 0 then some (beta, OlsTail.seZero)
    else some (beta, OlsTail.sePos var_beta)

/-- The pre-clamp sandwich variance of `_ols_nw`, exposed for the statement of
the clamp behaviour. -/
def nwVarBetaOf (y : List ℚ) (d : List ℤ) (nw_lags : ℤ) : Option ℚ :=
  match olsCore y d with
  | none => none
  | some (xtx_inv, alpha, beta) =>
    some (sandwich xtx_inv (nwMeat y d alpha beta (nwLagMax nw_lags y.length)))

def scaleMat (c : ℚ) (m : Mat2) : Mat2 := ⟨c * m.m00, c * m.m01, c * m.m10, c * m.m11⟩

/-- Cluster score meat (`_ols_cluster` lines 233-255): per-cluster score sums
`S_g = Σ_{i in g} x_i u_i` with `x_i = (1, d_i)`, then `meat = Σ_g S_g S_gᵀ`.
The dict iterates distinct cluster ids; addition over ℚ is commutative so the
iteration order is immaterial (`List.dedup` enumerates the distinct ids). -/
def clusterMeat (y : List ℚ) (d : List ℤ) (clusters : List String)
    (alpha beta : ℚ) : Mat2 :=
  let n := y.length
  let u : ℕ → ℚ := fun t => y.getD t 0 - (alpha + beta * ((d.getD t 0 : ℤ) : ℚ))
  let x1 : ℕ → ℚ := fun t => ((d.getD t 0 : ℤ) : ℚ)
  let s0 : String → ℚ := fun c =>
    ∑ t in Finset.range n, if clusters.getD t "" = c then 1 * u t else 0
  let s1 : String → ℚ := fun c =>
    ∑ t in Finset.range n, if clusters.getD t "" = c then x1 t * u t else 0
  ⟨(clusters.dedup.map (fun c => s0 c * s0 c)).sum,
   (clusters.dedup.map (fun c => s0 c * s1 c)).sum,
   (clusters.dedup.map (fun c => s1 c * s0 c)).sum,
   (clusters.dedup.map (fun c => s1 c * s1 c)).sum⟩

/-- The finite-sample correction (`_ols_cluster` lines 257-261): `corr = 1.0`,
replaced by `(g/(g-1)) * ((n-1)/(n-k))` with `k = 2` when `g > 1 and n > int(k)`. -/
def clusterCorr (g n : ℕ) : ℚ :=
  if 1 < g ∧ 2 < n then ((g : ℚ) / ((g : ℚ) - 1)) * (((n : ℚ) - 1) / ((n : ℚ) - 2))
  else 1

/-- `_ols_cluster` (lines 206-276): guards and OLS solve duplicated from
`_ols_nw` (plus the clusters-length guard), cluster count `g`, early return
`(beta, None, None, None, g)` when `g < 2`, else the corrected cluster sandwich
with the same clamp as `_ols_nw`.  The second component is `g`. -/
def _ols_cluster (y : List ℚ) (d : List ℤ) (clusters : List String) :
    Option (ℚ × OlsTail) × ℕ :=
  let n := y.length
  if n < 3 ∨ n ≠ d.length ∨ n ≠ clusters.length then (none, 0)
  else
    let s_d : ℚ := ((d.sum : ℤ) : ℚ)
    if s_d ≤ 0 ∨ (n : ℚ) ≤ s_d then (none, 0)
    else
      let s_y := y.sum
      let s_dy := ((y.zip d).map (fun p => p.1 * (p.2 : ℚ))).sum
      let xtx : Mat2 := ⟨(n : ℚ), s_d, s_d, s_d⟩
      match _mat2_inv xtx with
      | none => (none, 0)
      | some xtx_inv =>
        let alpha := xtx_inv.m00 * s_y + xtx_inv.m01 * s_dy
        let beta := xtx_inv.m10 * s_y + xtx_inv.m11 * s_dy
        let g := clusters.dedup.length
        if g < 2 then (some (beta, OlsTail.noSe), g)
        else
          let meat := scaleMat (clusterCorr g n) (clusterMeat y d clusters alpha beta)
          let var_beta := sandwich xtx_inv meat
          if var_beta < 0 then
            if -EPS < var_beta then (some (beta, OlsTail.seZero), g)
            else (some (beta, OlsTail.noSe), g)
          else if var_beta = 0 then (some (beta, OlsTail.seZero), g)
          else (some (beta, OlsTail.sePos var_beta), g)

/-! #### Guard analysis for the two estimators -/

theorem int_sum_le_length : ∀ {l : List ℤ}, (∀ x ∈ l, x ≤ 1) → l.sum ≤ (l.length : ℤ) := by
  intro l
  induction l with
  | nil => intro _; simp
  | cons a as ih =>
    intro h
    rw [List.sum_cons]
    have ha := h a (List.mem_cons_self _ _)
    have := ih (fun x hx => h x (List.mem_cons_of_mem _ hx))
    simp only [List.length_cons]
    push_cast
    omega

theorem int_sum_nonneg : ∀ {l : List ℤ}, (∀ x ∈ l, 0 ≤ x) → 0 ≤ l.sum := by
  intro l
  induction l with
  | nil => intro _; simp
  | cons a as ih =>
    intro h
    rw [List.sum_cons]
    have ha := h a (List.mem_cons_self _ _)
    have := ih (fun x hx => h x (List.mem_cons_of_mem _ hx))
    omega

theorem d_sum_ge_one {d : List ℤ} (h01 : ∀ x ∈ d, x = 0 ∨ x = 1) (h1 : (1:ℤ) ∈ d) :
    1 ≤ d.sum := by
  obtain ⟨s, t, rfl⟩ := List.append_of_mem h1
  rw [List.sum_append, List.sum_cons]
  have hs : 0 ≤ s.sum := int_sum_nonneg (fun x hx => by
    rcases h01 x (List.mem_append_left _ hx) with rfl | rfl <;> omega)
  have ht : 0 ≤ t.sum := int_sum_nonneg (fun x hx => by
    rcases h01 x (List.mem_append_right _ (List.mem_cons_of_mem _ hx)) with rfl | rfl <;> omega)
  omega

theorem d_sum_le_pred {d : List ℤ} (h01 : ∀ x ∈ d, x = 0 ∨ x = 1) (h0 : (0:ℤ) ∈ d) :
    d.sum ≤ (d.length : ℤ) - 1 := by
  obtain ⟨s, t, rfl⟩ := List.append_of_mem h0
  rw [List.sum_append, List.sum_cons]
  have hs : s.sum ≤ (s.length : ℤ) := int_sum_le_length (fun x hx => by
    rcases h01 x (List.mem_append_left _ hx) with rfl | rfl <;> omega)
  have ht : t.sum ≤ (t.length : ℤ) := int_sum_le_length (fun x hx => by
    rcases h01 x (List.mem_append_right _ (List.mem_cons_of_mem _ hx)) with rfl | rfl <;> omega)
  simp only [List.length_append, List.length_cons]
  push_cast
  omega

theorem _mat2_inv_isSome {a : Mat2} (h : EPS < |a.m00 * a.m11 - a.m01 * a.m10|) :
    ∃ inv, _mat2_inv a = some inv := by
  simp only [_mat2_inv]
  rw [if_neg (not_le.mpr h)]
  exact ⟨_, rfl⟩

theorem d_sum_bounds_q {y : List ℚ} {d : List ℤ} (hlen : y.length = d.length)
    (h01 : ∀ x ∈ d, x = 0 ∨ x = 1) (h1 : (1:ℤ) ∈ d) (h0 : (0:ℤ) ∈ d) :
    (1:ℚ) ≤ ((d.sum : ℤ) : ℚ) ∧ ((d.sum : ℤ) : ℚ) ≤ (y.length : ℚ) - 1 := by
  have hs1 : 1 ≤ d.sum := d_sum_ge_one h01 h1
  have hs2 : d.sum ≤ (d.length : ℤ) - 1 := d_sum_le_pred h01 h0
  constructor
  · exact_mod_cast hs1
  · rw [hlen]
    exact_mod_cast hs2

theorem xtx_det_big {y : List ℚ} {d : List ℤ} (hlen : y.length = d.length)
    (h01 : ∀ x ∈ d, x = 0 ∨ x = 1) (h1 : (1:ℤ) ∈ d) (h0 : (0:ℤ) ∈ d) :
    EPS < |(y.length : ℚ) * ((d.sum : ℤ) : ℚ) - ((d.sum : ℤ) : ℚ) * ((d.sum : ℤ) : ℚ)| := by
  obtain ⟨hs1q, hs2q⟩ := d_sum_bounds_q hlen h01 h1 h0
  have hdet : (y.length : ℚ) * ((d.sum : ℤ) : ℚ) - ((d.sum : ℤ) : ℚ) * ((d.sum : ℤ) : ℚ) =
      ((d.sum : ℤ) : ℚ) * ((y.length : ℚ) - ((d.sum : ℤ) : ℚ)) := by ring
  have h1le : (1:ℚ) ≤ ((d.sum : ℤ) : ℚ) * ((y.length : ℚ) - ((d.sum : ℤ) : ℚ)) := by
    nlinarith
  calc EPS < 1 := by norm_num [EPS]
    _ ≤ |(y.length : ℚ) * ((d.sum : ℤ) : ℚ) - ((d.sum : ℤ) : ℚ) * ((d.sum : ℤ) : ℚ)| := by
        rw [hdet, abs_of_nonneg (by linarith)]
        linarith

theorem olsCore_isSome {y : List ℚ} {d : List ℤ} (h3 : 3 ≤ y.length)
    (hlen : y.length = d.length) (h01 : ∀ x ∈ d, x = 0 ∨ x = 1)
    (h1 : (1:ℤ) ∈ d) (h0 : (0:ℤ) ∈ d) :
    ∃ (inv : Mat2) (a b : ℚ), olsCore y d = some (inv, a, b) := by
  obtain ⟨hs1q, hs2q⟩ := d_sum_bounds_q hlen h01 h1 h0
  obtain ⟨minv, hminv⟩ := _mat2_inv_isSome (a := ⟨(y.length : ℚ), ((d.sum : ℤ) : ℚ),
    ((d.sum : ℤ) : ℚ), ((d.sum : ℤ) : ℚ)⟩) (xtx_det_big hlen h01 h1 h0)
  rw [olsCore]
  rw [if_neg (by omega)]
  rw [if_neg (by push_neg; constructor <;> linarith)]
  simp only [hminv]
  exact ⟨_, _, _, rfl⟩

theorem int_sum_all_ones : ∀ {l : List ℤ}, (∀ x ∈ l, x = 1) → l.sum = l.length := by
  intro l
  induction l with
  | nil => intro _; simp
  | cons a as ih =>
    intro h
    rw [List.sum_cons, h a (List.mem_cons_self _ _),
      ih (fun x hx => h x (List.mem_cons_of_mem _ hx))]
    simp only [List.length_cons]
    push_cast
    ring

theorem olsCore_guard_none {y : List ℚ} {d : List ℤ}
    (h : y.length < 3 ∨ y.length ≠ d.length) : olsCore y d = none := by
  rw [olsCore, if_pos h]

theorem olsCore_const_none {y : List ℚ} {d : List ℤ}
    (hconst : (∀ x ∈ d, x = (0:ℤ)) ∨ (∀ x ∈ d, x = (1:ℤ))) : olsCore y d = none := by
  by_cases hg : y.length < 3 ∨ y.length ≠ d.length
  · exact olsCore_guard_none hg
  · push_neg at hg
    rw [olsCore, if_neg (by omega)]
    rw [if_pos]
    rcases hconst with hc | hc
    · left
      rw [List.sum_eq_zero hc]
      norm_num
    · right
      rw [int_sum_all_ones hc, hg.2]
      push_cast
      exact le_refl _

/-- C6: all-None on the degenerate guards (`n < 3`, length mismatch, constant 0/1
indicator); otherwise a point estimate is always produced; the lag count is
truncated (`lag_max = min(nw_lags, n-1)` for non-negative `nw_lags`, and any
`nw_lags ≥ n - 1` yields the same output as `n - 1`, so larger lag requests are
cut to `n - 1`); and the clamp on the sandwich variance: a negative value within
`1e-12` of zero is clamped to zero (`se = 0`, `z`/`p` undefined), one at or
beyond `-1e-12` keeps the point estimate with `se`/`z`/`p` all undefined, and a
positive one defines `se = sqrt(v)`, `z` and the two-sided normal p. -/
theorem claim_C6_ols_nw (y : List ℚ) (d : List ℤ) (nw_lags : ℤ) :
    (y.length < 3 ∨ y.length ≠ d.length → _ols_nw y d nw_lags = none) ∧
    ((∀ x ∈ d, x = (0:ℤ)) ∨ (∀ x ∈ d, x = (1:ℤ)) → _ols_nw y d nw_lags = none) ∧
    (3 ≤ y.length → y.length = d.length → (∀ x ∈ d, x = 0 ∨ x = 1) →
      (1:ℤ) ∈ d → (0:ℤ) ∈ d →
      ∃ (β : ℚ) (t : OlsTail), _ols_nw y d nw_lags = some (β, t)) ∧
    (0 ≤ nw_lags → 1 ≤ y.length →
      (nwLagMax nw_lags y.length : ℤ) = min nw_lags ((y.length : ℤ) - 1)) ∧
    ((y.length : ℤ) - 1 ≤ nw_lags →
      _ols_nw y d nw_lags = _ols_nw y d ((y.length : ℤ) - 1)) ∧
    (∀ (v β : ℚ) (t : OlsTail), nwVarBetaOf y d nw_lags = some v →
      _ols_nw y d nw_lags = some (β, t) →
      (v < 0 → -EPS < v → t = OlsTail.seZero) ∧
      (v ≤ -EPS → t = OlsTail.noSe) ∧
      (0 < v → t = OlsTail.sePos v)) := by
  refine ⟨?_, ?_, ?_, ?_, ?_, ?_⟩
  · intro h
    rw [_ols_nw, olsCore_guard_none h]
  · intro h
    rw [_ols_nw, olsCore_const_none h]
  · intro h3 hlen h01 h1 h0
    obtain ⟨inv, a, b, hcore⟩ := olsCore_isSome h3 hlen h01 h1 h0
    rw [_ols_nw, hcore]
    dsimp only
    split_ifs <;> exact ⟨_, _, rfl⟩
  · intro hnn hn1
    rw [nwLagMax, Int.toNat_of_nonneg]
    exact le_min hnn (by omega)
  · intro htr
    have heq : nwLagMax nw_lags y.length = nwLagMax ((y.length : ℤ) - 1) y.length := by
      rw [nwLagMax, nwLagMax, min_eq_right htr, min_self]
    rw [_ols_nw, _ols_nw, heq]
  · intro v β t hv ht
    cases hcore : olsCore y d with
    | none =>
      rw [nwVarBetaOf, hcore] at hv
      exact absurd hv (by simp)
    | some core =>
      obtain ⟨inv, a, b⟩ := core
      rw [nwVarBetaOf, hcore] at hv
      rw [_ols_nw, hcore] at ht
      dsimp only at hv ht
      have hveq : sandwich inv (nwMeat y d a b (nwLagMax nw_lags y.length)) = v :=
        Option.some.inj hv
      rw [hveq] at ht
      have heps : (0:ℚ) < EPS := by norm_num [EPS]
      split_ifs at ht with hc1 hc2 hc3
      · injection Option.some.inj ht with hb htt
        exact ⟨fun _ _ => htt.symm, fun hle => absurd hc2 (not_lt.mpr hle),
          fun hpos => absurd hc1 (not_lt.mpr (le_of_lt hpos))⟩
      · injection Option.some.inj ht with hb htt
        exact ⟨fun _ h2 => absurd h2 hc2, fun _ => htt.symm,
          fun hpos => absurd hc1 (not_lt.mpr (le_of_lt hpos))⟩
      · injection Option.some.inj ht with hb htt
        refine ⟨fun h1 _ => absurd h1 hc1, fun hle => ?_, fun hpos => absurd hc3 (ne_of_gt hpos)⟩
        push_neg at hc1
        exact absurd hle (by push_neg; linarith)
      · injection Option.some.inj ht with hb htt
        push_neg at hc1
        refine ⟨fun h1 _ => absurd (lt_of_lt_of_le h1 hc1) (lt_irrefl v), fun hle => ?_,
          fun hpos => htt.symm⟩
        exact absurd hle (by push_neg; linarith)

theorem _ols_cluster_fst (y : List ℚ) (d : List ℤ) (clusters : List String)
    (hlen : clusters.length = y.length) :
    ((_ols_cluster y d clusters).1).map Prod.fst =
      (olsCore y d).map (fun core => core.2.2) := by
  simp only [_ols_cluster, olsCore]
  by_cases h1 : y.length < 3 ∨ y.length ≠ d.length
  · rw [if_pos (h1.elim (fun h => Or.inl h) (fun h => Or.inr (Or.inl h))), if_pos h1]
    rfl
  · push_neg at h1
    have hA : ¬(y.length < 3 ∨ y.length ≠ d.length ∨ y.length ≠ clusters.length) := by
      push_neg
      exact ⟨h1.1, h1.2, by omega⟩
    have hB : ¬(y.length < 3 ∨ y.length ≠ d.length) := by
      push_neg
      exact h1
    rw [if_neg hA, if_neg hB]
    by_cases h2 : ((d.sum : ℤ) : ℚ) ≤ 0 ∨ (y.length : ℚ) ≤ ((d.sum : ℤ) : ℚ)
    · rw [if_pos h2, if_pos h2]
      rfl
    · rw [if_neg h2, if_neg h2]
      cases hinv : _mat2_inv ⟨(y.length : ℚ), ((d.sum : ℤ) : ℚ),
          ((d.sum : ℤ) : ℚ), ((d.sum : ℤ) : ℚ)⟩ with
      | none => simp [hinv]
      | some inv =>
        simp only [hinv]
        split_ifs <;> rfl

/-- C7 (amended): `_ols_cluster` computes the same OLS point estimate as
`_ols_nw` (given matching guard inputs their beta and its definedness agree);
the finite-sample correction applied to the cluster meat in the live branch
(`g ≥ 2`, `n ≥ 3`) is `(g/(g-1)) * ((n-1)/(n-k))` with `k = 2`; and on inputs
passing the OLS guards (`n ≥ 3`, equal lengths, non-constant 0/1 `D`) with fewer
than 2 distinct clusters the point estimate is still reported while `se`, `z`
and `p` are all undefined, alongside the cluster count `g`. -/
theorem claim_C7_ols_cluster (y : List ℚ) (d : List ℤ) (clusters : List String)
    (nw_lags : ℤ) :
    (clusters.length = y.length →
      ((_ols_cluster y d clusters).1).map Prod.fst =
        (_ols_nw y d nw_lags).map Prod.fst) ∧
    (∀ g n : ℕ, 2 ≤ g → 3 ≤ n →
      clusterCorr g n = ((g : ℚ) / ((g : ℚ) - 1)) * (((n : ℚ) - 1) / ((n : ℚ) - 2))) ∧
    (3 ≤ y.length → y.length = d.length → y.length = clusters.length →
      (∀ x ∈ d, x = 0 ∨ x = 1) → (1:ℤ) ∈ d → (0:ℤ) ∈ d →
      clusters.dedup.length < 2 →
      ∃ β : ℚ, _ols_cluster y d clusters =
        (some (β, OlsTail.noSe), clusters.dedup.length)) := by
  refine ⟨?_, ?_, ?_⟩
  · intro hlen
    rw [_ols_cluster_fst y d clusters hlen]
    cases hcore : olsCore y d with
    | none => rw [_ols_nw, hcore]; rfl
    | some core =>
      obtain ⟨inv, a, b⟩ := core
      rw [_ols_nw, hcore]
      dsimp only
      split_ifs <;> rfl
  · intro g n hg hn
    rw [clusterCorr, if_pos ⟨by omega, by omega⟩]
  · intro h3 hlen hclen h01 h1 h0 hg
    obtain ⟨hs1q, hs2q⟩ := d_sum_bounds_q hlen h01 h1 h0
    obtain ⟨minv, hminv⟩ := _mat2_inv_isSome (a := ⟨(y.length : ℚ), ((d.sum : ℤ) : ℚ),
      ((d.sum : ℤ) : ℚ), ((d.sum : ℤ) : ℚ)⟩) (xtx_det_big hlen h01 h1 h0)
    simp only [_ols_cluster]
    rw [if_neg (by push_neg; exact ⟨by omega, hlen, hclen⟩)]
    rw [if_neg (by push_neg; constructor <;> linarith)]
    simp only [hminv]
    rw [if_pos hg]
    exact ⟨_, rfl⟩

/-- C7 counterexample: `y = [0, 1]`, `d = [0, 1]`, one cluster ("a" twice):
fewer than 2 distinct clusters, yet no point estimate is reported — the `n < 3`
guard fires first and the function returns all-None with `g = 0`. -/
theorem claim_C7_counterexample :
    (_ols_cluster [0, 1] [0, 1] ["a", "a"]).1 = none ∧
    (_ols_cluster [0, 1] [0, 1] ["a", "a"]).2 = 0 ∧
    (["a", "a"] : List String).dedup.length < 2 := by
  refine ⟨?_, ?_, by decide⟩
  · rw [_ols_cluster, if_pos (by norm_num)]
  · rw [_ols_cluster, if_pos (by norm_num)]

/-! ### Claims table: tier rank, direction label and publication gating -/

/-- `_tier_rank` (`rb/randomization.py` lines 1048-1054; the input arrives
stripped). -/
def _tier_rank (tier : String) : ℤ :=
  if tier == "confirmatory" then 2
  else if tier == "supportive" then 1
  else 0

/-- `_direction_label` (`rb/randomization.py` lines 1152-1159). -/
def _direction_label : Option ℚ → String
  | none => "unknown"
  | some v => if 0 < v then "positive" else if v < 0 then "negative" else "flat"

/-- A companion HAC regression row: point estimate and HAC p-value. -/
structure HacRow where
  beta : ℚ
  p_two_sided : Option ℚ

/-- Modelled from the spec: the publication-mode tier gate of
`write_claims_table`.  `rb/cli.py` calls `write_claims_table` with
`publication_mode` and `publication_hac_p_threshold` arguments and downstream
modules read the `tier_*_publication` columns it writes, but the
`write_claims_table` present in the source tree accepts neither argument — the
gating branch itself is missing from the tree.  Spec §4.9: in publication mode a
`confirmatory` tier is downgraded unless a companion HAC regression row exists,
its point-estimate sign agrees with the permutation effect sign, and its HAC
p-value clears a caller-supplied threshold; otherwise it is demoted to
`supportive` (if only the HAC check fails) or `exploratory` (if the direction
disagrees), with the demotion reason recorded per row.  Sign agreement is
modelled as equality of `_direction_label`s; the result is (published tier,
demotion reason — empty when not demoted). -/
def publicationGate (tier : String) (effect : Option ℚ) (hac : Option HacRow)
    (hac_p_threshold : ℚ) : String × String :=
  if tier ≠ "confirmatory" then (tier, "")
  else
    match hac with
    | none => ("supportive", "no_hac_row")
    | some h =>
      if _direction_label (some h.beta) ≠ _direction_label effect then
        ("exploratory", "hac_direction_disagrees")
      else
        match h.p_two_sided with
        | none => ("supportive", "hac_p_missing")
        | some p =>
          if p < hac_p_threshold then (tier, "")
          else ("supportive", "hac_p_not_significant")

/-- C4: a row's published tier stays `confirmatory` exactly when the strict tier
is `confirmatory`, a companion HAC row exists, its direction agrees with the
permutation effect and its p-value is below the caller-supplied threshold;
failing only the significance check (or the row/p-value missing) demotes to
`supportive`, a direction disagreement demotes to `exploratory`, each with a
non-empty recorded reason; non-confirmatory tiers pass through unchanged. -/
theorem claim_C4_publication_gate (tier : String) (effect : Option ℚ)
    (hac : Option HacRow) (thr : ℚ) :
    ((publicationGate tier effect hac thr).1 = "confirmatory" ↔
      tier = "confirmatory" ∧ ∃ h : HacRow, hac = some h ∧
        _direction_label (some h.beta) = _direction_label effect ∧
        ∃ p : ℚ, h.p_two_sided = some p ∧ p < thr) ∧
    (tier = "confirmatory" → ∀ h : HacRow, hac = some h →
      _direction_label (some h.beta) = _direction_label effect →
      ∀ p : ℚ, h.p_two_sided = some p → ¬ p < thr →
      (publicationGate tier effect hac thr).1 = "supportive" ∧
        (publicationGate tier effect hac thr).2 ≠ "") ∧
    (tier = "confirmatory" → ∀ h : HacRow, hac = some h →
      _direction_label (some h.beta) ≠ _direction_label effect →
      (publicationGate tier effect hac thr).1 = "exploratory" ∧
        (publicationGate tier effect hac thr).2 ≠ "") ∧
    (tier = "confirmatory" → hac = none →
      (publicationGate tier effect hac thr).1 = "supportive" ∧
        (publicationGate tier effect hac thr).2 ≠ "") ∧
    (tier ≠ "confirmatory" → publicationGate tier effect hac thr = (tier, "")) := by
  by_cases ht : tier = "confirmatory"
  · subst ht
    refine ⟨?_, ?_, ?_, ?_, fun hne => absurd rfl hne⟩
    · cases hac with
      | none => simp [publicationGate]
      | some h =>
        by_cases hd : _direction_label (some h.beta) = _direction_label effect
        · cases hp : h.p_two_sided with
          | none => simp [publicationGate, hd, hp]
          | some p => by_cases hpt : p < thr <;> simp [publicationGate, hd, hp, hpt]
        · simp [publicationGate, hd]
    · intro _ h hh hd p hp hpt
      subst hh
      simp [publicationGate, hd, hp, hpt]
    · intro _ h hh hd
      subst hh
      simp [publicationGate, hd]
    · intro _ hh
      subst hh
      simp [publicationGate]
  · refine ⟨?_, ?_, ?_, ?_, fun _ => by simp [publicationGate, ht]⟩
    · simp [publicationGate, ht]
    · intro hc
      exact absurd hc ht
    · intro hc
      exact absurd hc ht
    · intro hc
      exact absurd hc ht

end RB
